import Mathlib

/-!
Verification of the Rust enum code generator
(`google/protobuf/compiler/rust/enum.cc`).

Strings are modelled as `List Char`; the ASCII helpers mirror
`absl/strings/ascii.h`.  The alias resolver (`enumValues`) and the
generated conversion code are shallowly embedded as executable
definitions, and the specification's claims are settled as theorems
about them.
-/

namespace RustEnumGen

/-- `absl::ascii_isupper`: ASCII `A` (65) to `Z` (90). -/
def asciiIsUpper (c : Char) : Bool := 65 ≤ c.toNat && c.toNat ≤ 90

/-- `absl::ascii_islower`: ASCII `a` (97) to `z` (122). -/
def asciiIsLower (c : Char) : Bool := 97 ≤ c.toNat && c.toNat ≤ 122

/-- `absl::ascii_isalpha`. -/
def asciiIsAlpha (c : Char) : Bool := asciiIsUpper c || asciiIsLower c

/-- `absl::ascii_isdigit`: ASCII `0` (48) to `9` (57). -/
def asciiIsDigit (c : Char) : Bool := 48 ≤ c.toNat && c.toNat ≤ 57

/-- `absl::ascii_tolower`. -/
def asciiToLower (c : Char) : Char :=
  if asciiIsUpper c then Char.ofNat (c.toNat + 32) else c

/-- `absl::ascii_toupper`. -/
def asciiToUpper (c : Char) : Char :=
  if asciiIsLower c then Char.ofNat (c.toNat - 32) else c

/-- Loop body of `camelToSnakeCase`; the boolean is the
`is_first_character` flag of the C++ loop (it stays `true` while only
underscores have been seen, exactly as in the source). -/
def camelToSnakeAux : Bool → List Char → List Char
  | _, [] => []
  | isFirst, c :: rest =>
    if c = '_' then
      '_' :: camelToSnakeAux isFirst rest
    else
      (if !isFirst && asciiIsUpper c then ['_'] else []) ++
        asciiToLower c :: camelToSnakeAux false rest

/-- `camelToSnakeCase` from `enum.cc`. -/
def camelToSnakeCase (s : List Char) : List Char := camelToSnakeAux true s

/-- Loop body of `screamingSnakeToUpperCamelCase`; the boolean is the
`cap_next_letter` flag of the C++ loop. -/
def screamingAux : Bool → List Char → List Char
  | _, [] => []
  | capNext, c :: rest =>
    if asciiIsAlpha c then
      (if capNext then asciiToUpper c else asciiToLower c) :: screamingAux false rest
    else if asciiIsDigit c then
      c :: screamingAux true rest
    else
      screamingAux true rest

/-- `screamingSnakeToUpperCamelCase` from `enum.cc`. -/
def screamingSnakeToUpperCamelCase (s : List Char) : List Char := screamingAux true s

/-- `absl::EqualsIgnoreCase` on ASCII. -/
def eqIgnoreCase : List Char → List Char → Bool
  | [], [] => true
  | a :: xs, b :: ys => (asciiToLower a = asciiToLower b) && eqIgnoreCase xs ys
  | _, _ => false

/-- `absl::StartsWithIgnoreCase`. -/
def startsWithIgnoreCase (s p : List Char) : Bool :=
  eqIgnoreCase (s.take p.length) p

/-- `absl::ConsumePrefix(&s, "_")`: strip one leading underscore if present. -/
def consumeUnderscore : List Char → List Char
  | '_' :: rest => rest
  | s => s

/-- A declared enum value of the schema (`EnumValueDescriptor`):
symbolic name and 32-bit signed number. -/
structure DeclaredValue where
  name : List Char
  number : Int
deriving DecidableEq

/-- `RustEnumValue` from `enum.cc`: a canonical value with its aliases. -/
structure RustEnumValue where
  name : List Char
  number : Int
  aliases : List (List Char)
deriving DecidableEq

/-- The enum schema as read from the descriptor: type name, ordered
declared values, and the open/closed classification. -/
structure EnumSchema where
  name : List Char
  values : List DeclaredValue
  isClosed : Bool
deriving DecidableEq

/-- The three candidate strip targets built from the enum's name
(`prefixes` in `enumValues`): the raw name, its UpperCamel form, its
snake_case form, in that order. -/
def candidateList (ename : List Char) : List (List Char) :=
  [ename, screamingSnakeToUpperCamelCase ename, camelToSnakeCase ename]

/-- The prefix-stripping loop of `enumValues`: test each candidate in
order, case-insensitively; on the first match drop it plus one joining
underscore and stop (the loop `break`s). -/
def stripFirstMatching (cands : List (List Char)) (s : List Char) : List Char :=
  match cands with
  | [] => s
  | p :: rest =>
    if startsWithIgnoreCase s p then consumeUnderscore (s.drop p.length)
    else stripFirstMatching rest s

/-- The `base_value_name` after stripping and the empty-remainder
fallback to the original symbolic name (`enum.cc` lines 113–132). -/
def stripResult (ename vname : List Char) : List Char :=
  let base := stripFirstMatching (candidateList ename) vname
  if base = [] then vname else base

/-- The `rust_value_name` computation of `enumValues`: normalize the
stripped remainder with `screamingSnakeToUpperCamelCase`, then prepend
`_` when the first character is a digit.  `headD '\0'` models C++
`std::string::operator[]` at index 0 of a possibly-empty string, which
yields the null character. -/
def normName (ename vname : List Char) : List Char :=
  let r := screamingSnakeToUpperCamelCase (stripResult ename vname)
  if asciiIsDigit (r.headD (Char.ofNat 0)) then '_' :: r else r

/-- State of the `enumValues` loop: `seen_by_name` (modelled as the list
of inserted names) and the growing `result` vector.  `seen_by_number` is
represented by number lookup in `result`, which is faithful because the
map sends each number to the unique `result` entry holding it. -/
structure ResolveState where
  seenNames : List (List Char)
  result : List RustEnumValue
deriving DecidableEq

/-- `it->second->aliases.push_back(rust_value_name)`: append the alias to
the (unique) result entry carrying the given number. -/
def addAlias : List RustEnumValue → Int → List Char → List RustEnumValue
  | [], _, _ => []
  | e :: rest, n, a =>
    if e.number = n then { e with aliases := e.aliases ++ [a] } :: rest
    else e :: addAlias rest n a

/-- One iteration of the `enumValues` loop over a declared value. -/
def resolveStep (ename : List Char) (st : ResolveState) (v : DeclaredValue) : ResolveState :=
  let rname := normName ename v.name
  if rname ∈ st.seenNames then st
  else if v.number ∈ st.result.map (·.number) then
    { seenNames := rname :: st.seenNames, result := addAlias st.result v.number rname }
  else
    { seenNames := rname :: st.seenNames,
      result := st.result ++ [{ name := rname, number := v.number, aliases := [] }] }

/-- The `enumValues` loop run from an arbitrary state. -/
def resolveFold (ename : List Char) (st : ResolveState) : List DeclaredValue → ResolveState
  | [] => st
  | v :: vs => resolveFold ename (resolveStep ename st v) vs

/-- `enumValues` from `enum.cc`: the canonical values with aliases. -/
def enumValues (ename : List Char) (vs : List DeclaredValue) : List RustEnumValue :=
  (resolveFold ename { seenNames := [], result := [] } vs).result

/-- The loop state just before declared value `i` is processed. -/
def stateAt (ename : List Char) (vs : List DeclaredValue) (i : Nat) : ResolveState :=
  resolveFold ename { seenNames := [], result := [] } (vs.take i)

/-- The three possible outcomes for one declared value. -/
inductive Outcome where
  | canonical
  | aliased
  | discarded
deriving DecidableEq

/-- Which branch of the `enumValues` loop a declared value takes from a
given state. -/
def outcomeOf (ename : List Char) (st : ResolveState) (v : DeclaredValue) : Outcome :=
  if normName ename v.name ∈ st.seenNames then Outcome.discarded
  else if v.number ∈ st.result.map (·.number) then Outcome.aliased
  else Outcome.canonical

/-- The outcome of the `i`-th declared value in a run of `enumValues`. -/
def outcomeAt (ename : List Char) (vs : List DeclaredValue) (i : Nat)
    (hi : i < vs.length) : Outcome :=
  outcomeOf ename (stateAt ename vs i) (vs.get ⟨i, hi⟩)

/-- The generated Rust newtype `pub struct $name$(i32)`: one 32-bit
signed payload. -/
structure EnumValueRepr where
  raw : Int
deriving DecidableEq

/-- The generated `impl From<$name$> for i32`: `val.0`. -/
def toI32 (v : EnumValueRepr) : Int := v.raw

/-- The numbers joined into `$known_values_pattern$` by the closed-enum
branch of `impl_from_i32`: one per canonical value, in order. -/
def knownNumbers (ename : List Char) (vs : List DeclaredValue) : List Int :=
  (enumValues ename vs).map (·.number)

/-- The generated closed-enum `TryFrom<i32>`: `matches!(val, p0|p1|...)`
over the canonical numbers; on failure `UnknownEnumValue` carrying the
rejected integer (modelled as the `Except` error payload). -/
def tryFromI32 (ename : List Char) (vs : List DeclaredValue) (n : Int) :
    Except Int EnumValueRepr :=
  if n ∈ knownNumbers ename vs then Except.ok { raw := n } else Except.error n

/-- The generated open-enum `From<i32>`: `Self(val)`. -/
def openFromI32 (n : Int) : EnumValueRepr := { raw := n }

/-- The only generation-time schema violation: `ABSL_CHECK(desc.value_count() > 0)`. -/
inductive SchemaViolation where
  | emptyEnum
deriving DecidableEq

/-- The rendered model of one generated enum definition: the canonical
variants with aliases, the emitted default number (`desc.value(0)->number()`),
and which `From`/`TryFrom` impl was chosen. -/
structure GeneratedEnum where
  variants : List RustEnumValue
  defaultNumber : Int
  isClosed : Bool
deriving DecidableEq

/-- `GenerateEnumDefinition` from `enum.cc`: abort on an empty enum
(`ABSL_CHECK` fires before anything is emitted), otherwise resolve the
values and emit. -/
def generateEnumDefinition (d : EnumSchema) : Except SchemaViolation GeneratedEnum :=
  match d.values with
  | [] => Except.error SchemaViolation.emptyEnum
  | v0 :: _ =>
    Except.ok
      { variants := enumValues d.name d.values
        defaultNumber := v0.number
        isClosed := d.isClosed }

/-- Text skeleton of one emitted variant constant plus its aliases. -/
def renderVariant (v : RustEnumValue) : List Char :=
  "pub const ".toList ++ v.name ++ ";".toList ++
    v.aliases.foldr (fun a acc => "pub const ".toList ++ a ++ ";".toList ++ acc) []

/-- Text skeleton of the emitted enum definition (the template starts
with fixed literal text, so it is never empty). -/
def renderEnum (g : GeneratedEnum) : List Char :=
  "#[repr(transparent)] pub struct (i32);".toList ++
    (g.variants.foldr (fun v acc => renderVariant v ++ acc) [])

/-- Generation against a caller-owned append-only sink: on the schema
violation the invocation aborts and nothing is appended; on success the
rendered text is appended. -/
def generateToSink (d : EnumSchema) (sink : List Char) :
    Except SchemaViolation (List Char) :=
  match generateEnumDefinition d with
  | Except.error v => Except.error v
  | Except.ok g => Except.ok (sink ++ renderEnum g)

/-- Modelled from the claim's words (C4): find the first of the three
candidates that case-insensitively starts the symbolic name, strip it
plus at most one immediately following underscore, revert to the
original name on an empty remainder, apply
`screamingSnakeToUpperCamelCase`, and prepend `_` when the first
character of the result is a digit. -/
def normNameSpec (ename vname : List Char) : List Char :=
  let cands := [ename, screamingSnakeToUpperCamelCase ename, camelToSnakeCase ename]
  let stripped :=
    match cands.find? (fun p => startsWithIgnoreCase vname p) with
    | some p => consumeUnderscore (vname.drop p.length)
    | none => vname
  let base := if stripped = [] then vname else stripped
  match screamingSnakeToUpperCamelCase base with
  | [] => []
  | c :: rest => if asciiIsDigit c then '_' :: c :: rest else c :: rest

/-- Modelled from the claim's words (C5): underscores pass through; an
underscore is inserted before an uppercase letter exactly when it is not
the first character (`prev = none`) and the immediately preceding
character is not an underscore; letters are lowercased. -/
def camelToSnakeSpecAux : Option Char → List Char → List Char
  | _, [] => []
  | prev, c :: rest =>
    if c = '_' then '_' :: camelToSnakeSpecAux (some '_') rest
    else
      (if (match prev with
           | none => false
           | some p => asciiIsUpper c && !(p = '_')) then ['_'] else []) ++
        asciiToLower c :: camelToSnakeSpecAux (some c) rest

/-- The claim's characterization of `camelToSnakeCase` (C5), as stated. -/
def camelToSnakeSpec (s : List Char) : List Char := camelToSnakeSpecAux none s

/-- Modelling the amended claim (C5): an underscore is inserted before
an uppercase letter exactly when at least one non-underscore character
occurs anywhere earlier in the string. -/
def camelToSnakeAmendedAux : Bool → List Char → List Char
  | _, [] => []
  | seenNonUnderscore, c :: rest =>
    if c = '_' then '_' :: camelToSnakeAmendedAux seenNonUnderscore rest
    else
      (if seenNonUnderscore && asciiIsUpper c then ['_'] else []) ++
        asciiToLower c :: camelToSnakeAmendedAux true rest

/-- The amended characterization of `camelToSnakeCase` (C5). -/
def camelToSnakeAmended (s : List Char) : List Char := camelToSnakeAmendedAux false s

/-- The declared values that are not discarded by the name-collision
rule: a value survives exactly when its normalized name is new among the
survivors seen so far. -/
def survivors (ename : List Char) (seen : List (List Char)) :
    List DeclaredValue → List DeclaredValue
  | [] => []
  | v :: vs =>
    let nm := normName ename v.name
    if nm ∈ seen then survivors ename seen vs
    else v :: survivors ename (nm :: seen) vs

/-- Keep the first occurrence of each element not already in `seen`
(used to state the canonical-list ordering of C7). -/
def firstDedup (seen : List Int) : List Int → List Int
  | [] => []
  | n :: rest =>
    if n ∈ seen then firstDedup seen rest
    else n :: firstDedup (n :: seen) rest

example : camelToSnakeCase "MyEnum".toList = "my_enum".toList := by decide
example : screamingSnakeToUpperCamelCase "MY_ENUM_FOO".toList = "MyEnumFoo".toList := by decide
example : screamingSnakeToUpperCamelCase "2D".toList = "2D".toList := by decide
example : camelToSnakeCase "A_B".toList = "a__b".toList := by decide
example : startsWithIgnoreCase "MY_ENUM_FOO".toList "my_enum".toList = true := by decide
example : normName "MyEnum".toList "MY_ENUM_FOO".toList = "Foo".toList := by decide
example : normName "E".toList "E_2D".toList = "_2D".toList := by decide
example : normName "MyEnum".toList "MY_ENUM".toList = "MyEnum".toList := by decide
example :
    enumValues "E".toList
      [⟨"A".toList, 0⟩, ⟨"B".toList, 1⟩, ⟨"B_ALIAS".toList, 1⟩, ⟨"A".toList, 0⟩] =
      [⟨"A".toList, 0, []⟩, ⟨"B".toList, 1, ["BAlias".toList]⟩] := by decide
example :
    enumValues "E".toList [⟨"FOO".toList, 0⟩, ⟨"Foo".toList, 1⟩] =
      [⟨"Foo".toList, 0, []⟩] := by decide

lemma char_toNat_ofNat (n : Nat) (h : n.isValidChar) : (Char.ofNat n).toNat = n := by
  simp only [Char.ofNat, h, dite_true, Char.ofNatAux, Char.toNat]
  rfl

lemma asciiIsUpper_toLower (c : Char) : asciiIsUpper (asciiToLower c) = false := by
  by_cases h : asciiIsUpper c = true
  · unfold asciiToLower
    simp only [h, if_true]
    unfold asciiIsUpper at h ⊢
    simp only [Bool.and_eq_true, decide_eq_true_eq] at h
    have hv : (Char.ofNat (c.toNat + 32)).toNat = c.toNat + 32 :=
      char_toNat_ofNat _ (Or.inl (by omega))
    simp only [hv, Bool.and_eq_false_iff, decide_eq_false_iff_not]
    right; omega
  · unfold asciiToLower
    simp only [h, if_false]
    exact Bool.not_eq_true _ ▸ h

lemma camelToSnakeAux_eq_amended (s : List Char) :
    ∀ b, camelToSnakeAux b s = camelToSnakeAmendedAux (!b) s := by
  induction s with
  | nil => intro b; rfl
  | cons c rest ih =>
    intro b
    by_cases hc : c = '_'
    · simp only [camelToSnakeAux, camelToSnakeAmendedAux, hc, if_true, List.cons.injEq,
        true_and]
      exact ih b
    · simp only [camelToSnakeAux, camelToSnakeAmendedAux, hc, if_false, ite_false]
      have := ih false
      simp only [Bool.not_false] at this
      simp [this]

lemma asciiIsUpper_underscore : asciiIsUpper '_' = false := by decide

lemma camelToSnakeAux_no_upper (s : List Char) :
    ∀ b, ∀ c ∈ camelToSnakeAux b s, asciiIsUpper c = false := by
  induction s with
  | nil => intro b c hc; simp [camelToSnakeAux] at hc
  | cons a rest ih =>
    intro b c hc
    by_cases ha : a = '_'
    · simp only [camelToSnakeAux, ha, if_true, List.mem_cons] at hc
      rcases hc with rfl | hc
      · exact asciiIsUpper_underscore
      · exact ih b c hc
    · simp only [camelToSnakeAux, ha, ite_false] at hc
      rw [List.mem_append] at hc
      rcases hc with hc | hc
      · split at hc
        · simp only [List.mem_singleton] at hc
          subst hc
          exact asciiIsUpper_underscore
        · simp at hc
      · rw [List.mem_cons] at hc
        rcases hc with rfl | hc
        · exact asciiIsUpper_toLower a
        · exact ih false c hc

/-- C5 counterexample: on `"A_B"` the code inserts an underscore before
`B` even though `B` immediately follows an underscore, so the claim's
characterization disagrees with the code. -/
theorem camelToSnake_claim_counterexample :
    camelToSnakeCase "A_B".toList = "a__b".toList ∧
    camelToSnakeSpec "A_B".toList = "a_b".toList ∧
    camelToSnakeCase "A_B".toList ≠ camelToSnakeSpec "A_B".toList := by
  refine ⟨by decide, by decide, by decide⟩

/-- C5 (amended): `camelToSnakeCase` passes underscores through, inserts
an underscore before exactly those uppercase letters preceded somewhere
earlier in the string by at least one non-underscore character, and every
letter of the output is lowercase. -/
theorem camelToSnake_amended (s : List Char) :
    camelToSnakeCase s = camelToSnakeAmended s ∧
    ∀ c ∈ camelToSnakeCase s, asciiIsUpper c = false := by
  constructor
  · have := camelToSnakeAux_eq_amended s true
    simpa [camelToSnakeCase, camelToSnakeAmended] using this
  · exact camelToSnakeAux_no_upper s true

/-- C5 witness: the amended characterization evaluated at `"A_B"`. -/
theorem camelToSnake_amended_witness :
    camelToSnakeCase "A_B".toList = camelToSnakeAmended "A_B".toList :=
  (camelToSnake_amended "A_B".toList).1

/-- C2: the generated open-enum conversion stores every 32-bit integer
verbatim and converts back to exactly that integer. -/
theorem open_enum_roundtrip (n : Int) (h1 : -(2 ^ 31) ≤ n) (h2 : n < 2 ^ 31) :
    (openFromI32 n).raw = n ∧ toI32 (openFromI32 n) = n :=
  ⟨rfl, rfl⟩

/-- C2 witness: round-trip at `99`, a number absent from any schema. -/
theorem open_enum_roundtrip_witness :
    -(2 ^ 31) ≤ (99 : Int) ∧ (99 : Int) < 2 ^ 31 ∧ toI32 (openFromI32 99) = 99 :=
  ⟨by decide, by decide, (open_enum_roundtrip 99 (by decide) (by decide)).2⟩

/-- C8: for a non-empty schema the emitted default value is the number
of the first declared value, independent of the alias resolver. -/
theorem default_value_is_first_declared (d : EnumSchema) (v0 : DeclaredValue)
    (rest : List DeclaredValue) (h : d.values = v0 :: rest) :
    ∃ g, generateEnumDefinition d = Except.ok g ∧ g.defaultNumber = v0.number := by
  unfold generateEnumDefinition
  rw [h]
  exact ⟨_, rfl, rfl⟩

/-- C8 witness: a one-value schema whose first declared number is `5`. -/
theorem default_value_is_first_declared_witness :
    ∃ g, generateEnumDefinition ⟨"E".toList, [⟨"A".toList, 5⟩], true⟩ = Except.ok g ∧
      g.defaultNumber = 5 :=
  default_value_is_first_declared _ ⟨"A".toList, 5⟩ [] rfl

lemma renderEnum_ne_nil (g : GeneratedEnum) : renderEnum g ≠ [] := by
  unfold renderEnum
  intro hcontra
  have h1 := (List.append_eq_nil.mp hcontra).1
  exact absurd h1 (by decide)

/-- C9: generation fails exactly on the empty schema, aborting with
nothing appended to the sink; on any non-empty schema it completes and
appends non-empty output. -/
theorem generation_fails_iff_empty (d : EnumSchema) (sink : List Char) :
    (d.values = [] → generateToSink d sink = Except.error SchemaViolation.emptyEnum) ∧
    (d.values ≠ [] → ∃ g, generateEnumDefinition d = Except.ok g ∧
      generateToSink d sink = Except.ok (sink ++ renderEnum g) ∧ renderEnum g ≠ []) := by
  constructor
  · intro h
    unfold generateToSink generateEnumDefinition
    rw [h]
  · intro h
    obtain ⟨v0, rest, hv⟩ := List.exists_cons_of_ne_nil h
    have hg : generateEnumDefinition d =
        Except.ok
          { variants := enumValues d.name d.values
            defaultNumber := v0.number
            isClosed := d.isClosed } := by
      unfold generateEnumDefinition
      rw [hv]
    refine ⟨_, hg, ?_, renderEnum_ne_nil _⟩
    unfold generateToSink
    rw [hg]

/-- C9 witness: the empty schema aborts; a one-value schema emits. -/
theorem generation_fails_iff_empty_witness :
    generateToSink ⟨"E".toList, [], true⟩ [] = Except.error SchemaViolation.emptyEnum ∧
    ∃ g, generateEnumDefinition ⟨"E".toList, [⟨"A".toList, 0⟩], true⟩ = Except.ok g ∧
      generateToSink ⟨"E".toList, [⟨"A".toList, 0⟩], true⟩ [] =
        Except.ok ([] ++ renderEnum g) ∧ renderEnum g ≠ [] :=
  ⟨(generation_fails_iff_empty ⟨"E".toList, [], true⟩ []).1 rfl,
    (generation_fails_iff_empty ⟨"E".toList, [⟨"A".toList, 0⟩], true⟩ []).2 (by decide)⟩

lemma screamingAux_eq_nil_iff (s : List Char) :
    ∀ b, (screamingAux b s = [] ↔
      s.all (fun c => !(asciiIsAlpha c || asciiIsDigit c)) = true) := by
  induction s with
  | nil => intro b; simp [screamingAux]
  | cons c rest ih =>
    intro b
    by_cases ha : asciiIsAlpha c = true
    · simp [screamingAux, ha]
    · by_cases hd : asciiIsDigit c = true
      · simp [screamingAux, ha, hd]
      · simp [screamingAux, ha, hd, ih]

/-- C10: the string the digit-leading guard indexes is empty exactly
when the stripped symbolic name contains no alphabetic or digit
character; in that case the whole normalized name is empty (the C++
guard then reads the null character at position 0 of an empty
`std::string`). -/
theorem digit_guard_nonempty_iff (ename vname : List Char) :
    (screamingSnakeToUpperCamelCase (stripResult ename vname) = [] ↔
      (stripResult ename vname).all (fun c => !(asciiIsAlpha c || asciiIsDigit c)) = true) ∧
    ((stripResult ename vname).all (fun c => !(asciiIsAlpha c || asciiIsDigit c)) = true →
      normName ename vname = []) := by
  refine ⟨screamingAux_eq_nil_iff _ _, ?_⟩
  intro h
  have h0 : screamingSnakeToUpperCamelCase (stripResult ename vname) = [] :=
    (screamingAux_eq_nil_iff _ _).mpr h
  unfold normName
  rw [h0]
  decide

/-- C10 witness: the symbolic name `"_"` (no alphanumeric characters)
normalizes to the empty string. -/
theorem digit_guard_nonempty_iff_witness : normName "E".toList "_".toList = [] :=
  (digit_guard_nonempty_iff "E".toList "_".toList).2 (by decide)

lemma guard_match_eq (B : List Char) :
    (if asciiIsDigit ((screamingSnakeToUpperCamelCase B).headD (Char.ofNat 0)) then
        '_' :: screamingSnakeToUpperCamelCase B
      else screamingSnakeToUpperCamelCase B) =
      (match screamingSnakeToUpperCamelCase B with
       | [] => ([] : List Char)
       | c :: rest => if asciiIsDigit c then '_' :: c :: rest else c :: rest) := by
  cases hr : screamingSnakeToUpperCamelCase B with
  | nil => simp [hr]; decide
  | cons c t => simp [hr, List.headD]

/-- C4: the normalized name is computed exactly as the claim describes:
first case-insensitive candidate match (raw, UpperCamel, snake forms of
the enum name, in order) is stripped along with at most one joining
underscore, an empty remainder reverts to the original symbolic name,
the remainder is camel-cased, and a leading digit gets an underscore. -/
theorem normName_eq_spec (ename vname : List Char) :
    normName ename vname = normNameSpec ename vname := by
  unfold normName normNameSpec stripResult candidateList
  by_cases h1 : startsWithIgnoreCase vname ename = true
  · simp only [stripFirstMatching, List.find?, h1, if_true]
    exact guard_match_eq _
  · rw [Bool.not_eq_true] at h1
    by_cases h2 : startsWithIgnoreCase vname (screamingSnakeToUpperCamelCase ename) = true
    · simp only [stripFirstMatching, List.find?, h1, h2, Bool.false_eq_true, if_false, if_true]
      exact guard_match_eq _
    · rw [Bool.not_eq_true] at h2
      by_cases h3 : startsWithIgnoreCase vname (camelToSnakeCase ename) = true
      · simp only [stripFirstMatching, List.find?, h1, h2, h3, Bool.false_eq_true, if_false,
          if_true]
        exact guard_match_eq _
      · rw [Bool.not_eq_true] at h3
        simp only [stripFirstMatching, List.find?, h1, h2, h3, Bool.false_eq_true, if_false]
        exact guard_match_eq _

lemma addAlias_length (l : List RustEnumValue) (n : Int) (a : List Char) :
    (addAlias l n a).length = l.length := by
  induction l with
  | nil => rfl
  | cons e rest ih =>
    unfold addAlias
    split
    · simp
    · simp [ih]

lemma addAlias_map_number (l : List RustEnumValue) (n : Int) (a : List Char) :
    (addAlias l n a).map (·.number) = l.map (·.number) := by
  induction l with
  | nil => rfl
  | cons e rest ih =>
    unfold addAlias
    split
    · simp
    · simp [ih]

lemma addAlias_mem (l : List RustEnumValue) (n : Int) (a : List Char) :
    ∀ e' ∈ addAlias l n a, e' ∈ l ∨
      ∃ e ∈ l, e.number = n ∧ e' = { e with aliases := e.aliases ++ [a] } := by
  induction l with
  | nil => intro e' h; simp [addAlias] at h
  | cons e rest ih =>
    intro e' h
    unfold addAlias at h
    by_cases hn : e.number = n
    · rw [if_pos hn] at h
      rcases List.mem_cons.mp h with rfl | hmem
      · exact Or.inr ⟨e, List.mem_cons_self e rest, hn, rfl⟩
      · exact Or.inl (List.mem_cons_of_mem e hmem)
    · rw [if_neg hn] at h
      rcases List.mem_cons.mp h with rfl | hmem
      · exact Or.inl (List.mem_cons_self e' rest)
      · rcases ih e' hmem with h1 | ⟨e0, he0, hne0, heq⟩
        · exact Or.inl (List.mem_cons_of_mem e h1)
        · exact Or.inr ⟨e0, List.mem_cons_of_mem e he0, hne0, heq⟩

lemma resolveStep_seen_of_discard (ename : List Char) (st : ResolveState)
    (v : DeclaredValue) (h : normName ename v.name ∈ st.seenNames) :
    resolveStep ename st v = st := by
  unfold resolveStep
  rw [if_pos h]

lemma resolveStep_of_alias (ename : List Char) (st : ResolveState) (v : DeclaredValue)
    (h1 : normName ename v.name ∉ st.seenNames)
    (h2 : v.number ∈ st.result.map (·.number)) :
    resolveStep ename st v =
      { seenNames := normName ename v.name :: st.seenNames
        result := addAlias st.result v.number (normName ename v.name) } := by
  unfold resolveStep
  rw [if_neg h1, if_pos h2]

lemma resolveStep_of_canonical (ename : List Char) (st : ResolveState) (v : DeclaredValue)
    (h1 : normName ename v.name ∉ st.seenNames)
    (h2 : v.number ∉ st.result.map (·.number)) :
    resolveStep ename st v =
      { seenNames := normName ename v.name :: st.seenNames
        result := st.result ++
          [{ name := normName ename v.name, number := v.number, aliases := [] }] } := by
  unfold resolveStep
  rw [if_neg h1, if_neg h2]

lemma resolveStep_seen_mem (ename : List Char) (st : ResolveState) (v : DeclaredValue)
    (x : List Char) :
    x ∈ (resolveStep ename st v).seenNames ↔
      x ∈ st.seenNames ∨ x = normName ename v.name := by
  by_cases h1 : normName ename v.name ∈ st.seenNames
  · rw [resolveStep_seen_of_discard ename st v h1]
    constructor
    · exact Or.inl
    · rintro (h | rfl)
      · exact h
      · exact h1
  · by_cases h2 : v.number ∈ st.result.map (·.number)
    · rw [resolveStep_of_alias ename st v h1 h2]
      simp [List.mem_cons, or_comm]
    · rw [resolveStep_of_canonical ename st v h1 h2]
      simp [List.mem_cons, or_comm]

lemma resolveStep_number_mem (ename : List Char) (st : ResolveState) (v : DeclaredValue)
    (n : Int) :
    n ∈ (resolveStep ename st v).result.map (·.number) ↔
      n ∈ st.result.map (·.number) ∨
        (normName ename v.name ∉ st.seenNames ∧ n = v.number) := by
  by_cases h1 : normName ename v.name ∈ st.seenNames
  · rw [resolveStep_seen_of_discard ename st v h1]
    constructor
    · exact Or.inl
    · rintro (h | ⟨hc, rfl⟩)
      · exact h
      · exact absurd h1 hc
  · by_cases h2 : v.number ∈ st.result.map (·.number)
    · rw [resolveStep_of_alias ename st v h1 h2]
      simp only [addAlias_map_number]
      constructor
      · exact Or.inl
      · rintro (h | ⟨_, rfl⟩)
        · exact h
        · exact h2
    · rw [resolveStep_of_canonical ename st v h1 h2]
      simp only [List.map_append, List.map_cons, List.map_nil, List.mem_append,
        List.mem_singleton]
      constructor
      · rintro (h | rfl)
        · exact Or.inl h
        · exact Or.inr ⟨h1, rfl⟩
      · rintro (h | ⟨_, rfl⟩)
        · exact Or.inl h
        · exact Or.inr rfl

lemma resolveStep_result_length (ename : List Char) (st : ResolveState)
    (v : DeclaredValue) :
    (resolveStep ename st v).result.length =
      if normName ename v.name ∉ st.seenNames ∧ v.number ∉ st.result.map (·.number)
      then st.result.length + 1 else st.result.length := by
  by_cases h1 : normName ename v.name ∈ st.seenNames
  · rw [resolveStep_seen_of_discard ename st v h1, if_neg (by tauto)]
  · by_cases h2 : v.number ∈ st.result.map (·.number)
    · rw [resolveStep_of_alias ename st v h1 h2, if_neg (by tauto)]
      exact addAlias_length _ _ _
    · rw [resolveStep_of_canonical ename st v h1 h2, if_pos ⟨h1, h2⟩]
      simp

lemma resolveFold_append (ename : List Char) (l1 l2 : List DeclaredValue) :
    ∀ st, resolveFold ename st (l1 ++ l2) = resolveFold ename (resolveFold ename st l1) l2 := by
  induction l1 with
  | nil => intro st; rfl
  | cons v rest ih => intro st; simp only [List.cons_append, resolveFold]; exact ih _

lemma resolveFold_seen_mem (ename : List Char) (vs : List DeclaredValue) :
    ∀ (st : ResolveState) (x : List Char),
      x ∈ (resolveFold ename st vs).seenNames ↔
        x ∈ st.seenNames ∨ ∃ v ∈ vs, normName ename v.name = x := by
  induction vs with
  | nil => intro st x; simp [resolveFold]
  | cons v rest ih =>
    intro st x
    unfold resolveFold
    rw [ih, resolveStep_seen_mem]
    simp only [List.mem_cons]
    constructor
    · rintro ((h | rfl) | ⟨w, hw, hnw⟩)
      · exact Or.inl h
      · exact Or.inr ⟨v, Or.inl rfl, rfl⟩
      · exact Or.inr ⟨w, Or.inr hw, hnw⟩
    · rintro (h | ⟨w, (rfl | hw), hnw⟩)
      · exact Or.inl (Or.inl h)
      · exact Or.inl (Or.inr hnw.symm)
      · exact Or.inr ⟨w, hw, hnw⟩

lemma resolveFold_length_le (ename : List Char) (vs : List DeclaredValue) :
    ∀ st, (resolveFold ename st vs).result.length ≤ st.result.length + vs.length := by
  induction vs with
  | nil => intro st; simp [resolveFold]
  | cons v rest ih =>
    intro st
    unfold resolveFold
    have h1 := ih (resolveStep ename st v)
    have h2 := resolveStep_result_length ename st v
    simp only [List.length_cons]
    split at h2 <;> omega

lemma stateAt_seen_mem (ename : List Char) (vs : List DeclaredValue) (i : Nat)
    (x : List Char) :
    x ∈ (stateAt ename vs i).seenNames ↔
      ∃ j, ∃ hj : j < vs.length, j < i ∧ normName ename ((vs.get ⟨j, hj⟩).name) = x := by
  unfold stateAt
  rw [resolveFold_seen_mem]
  simp only [List.not_mem_nil, false_or]
  constructor
  · rintro ⟨v, hv, hnv⟩
    obtain ⟨j, hm, hget⟩ := List.mem_take_iff_getElem.mp hv
    refine ⟨j, ?_, ?_, ?_⟩
    · omega
    · omega
    · rw [List.get_eq_getElem, hget]
      exact hnv
  · rintro ⟨j, hj, hji, hnorm⟩
    refine ⟨vs.get ⟨j, hj⟩, ?_, hnorm⟩
    exact List.mem_take_iff_getElem.mpr ⟨j, by omega, by rw [List.get_eq_getElem]⟩

lemma outcomeAt_discarded_iff (ename : List Char) (vs : List DeclaredValue) (i : Nat)
    (hi : i < vs.length) :
    outcomeAt ename vs i hi = Outcome.discarded ↔
      normName ename ((vs.get ⟨i, hi⟩).name) ∈ (stateAt ename vs i).seenNames := by
  unfold outcomeAt outcomeOf
  split
  · next h => simp [List.get_eq_getElem] at h ⊢; exact h
  · next h =>
    simp only [List.get_eq_getElem] at h
    split
    · simp only [List.get_eq_getElem]
      constructor
      · intro hc; exact absurd hc (by simp)
      · intro hc; exact absurd hc h
    · simp only [List.get_eq_getElem]
      constructor
      · intro hc; exact absurd hc (by simp)
      · intro hc; exact absurd hc h

lemma discard_has_earlier_nondiscarded (ename : List Char) (vs : List DeclaredValue) :
    ∀ i (hi : i < vs.length), outcomeAt ename vs i hi = Outcome.discarded →
      ∃ j, ∃ hj : j < vs.length, j < i ∧ outcomeAt ename vs j hj ≠ Outcome.discarded ∧
        normName ename ((vs.get ⟨j, hj⟩).name) = normName ename ((vs.get ⟨i, hi⟩).name) := by
  intro i
  induction i using Nat.strong_induction_on with
  | _ i ih =>
    intro hi hdisc
    rw [outcomeAt_discarded_iff, stateAt_seen_mem] at hdisc
    obtain ⟨j, hj, hji, hnorm⟩ := hdisc
    by_cases hdj : outcomeAt ename vs j hj = Outcome.discarded
    · obtain ⟨k, hk, hkj, hndk, hnk⟩ := ih j hji hj hdj
      exact ⟨k, hk, lt_trans hkj hji, hndk, hnk.trans hnorm⟩
    · exact ⟨j, hj, hji, hdj, hnorm⟩

/-- C3: a declared value is discarded exactly when its normalized name
equals the normalized name of some earlier non-discarded declared value
(whose name is therefore recorded as a canonical name or an alias),
regardless of numbers; a first occurrence of a name is never discarded. -/
theorem discarded_iff_name_collision (ename : List Char) (vs : List DeclaredValue)
    (i : Nat) (hi : i < vs.length) :
    outcomeAt ename vs i hi = Outcome.discarded ↔
      ∃ j, ∃ hj : j < vs.length, j < i ∧ outcomeAt ename vs j hj ≠ Outcome.discarded ∧
        normName ename ((vs.get ⟨j, hj⟩).name) =
          normName ename ((vs.get ⟨i, hi⟩).name) := by
  constructor
  · exact discard_has_earlier_nondiscarded ename vs i hi
  · rintro ⟨j, hj, hji, _, hnorm⟩
    rw [outcomeAt_discarded_iff, stateAt_seen_mem]
    exact ⟨j, hj, hji, hnorm⟩

/-- C3 witness: in `[FOO = 0, Foo = 1]` both names normalize to `Foo`,
so the second value is discarded because of the first, non-discarded one. -/
theorem discarded_iff_name_collision_witness :
    outcomeAt "E".toList [⟨"FOO".toList, 0⟩, ⟨"Foo".toList, 1⟩] 1 (by decide) =
      Outcome.discarded :=
  (discarded_iff_name_collision "E".toList [⟨"FOO".toList, 0⟩, ⟨"Foo".toList, 1⟩] 1
      (by decide)).mpr
    ⟨0, by decide, by decide, by decide, by decide⟩

lemma resolveFold_length_of_fresh (ename : List Char) :
    ∀ (vs : List DeclaredValue) (st : ResolveState),
      (vs.map fun v => normName ename v.name).Nodup →
      (vs.map (·.number)).Nodup →
      (∀ v ∈ vs, normName ename v.name ∉ st.seenNames) →
      (∀ v ∈ vs, v.number ∉ st.result.map (·.number)) →
      (resolveFold ename st vs).result.length = st.result.length + vs.length := by
  intro vs
  induction vs with
  | nil => intro st _ _ _ _; simp [resolveFold]
  | cons v rest ih =>
    intro st hn1 hn2 hf1 hf2
    simp only [List.map_cons, List.nodup_cons] at hn1 hn2
    have hv1 : normName ename v.name ∉ st.seenNames := hf1 v (List.mem_cons_self v rest)
    have hv2 : v.number ∉ st.result.map (·.number) := hf2 v (List.mem_cons_self v rest)
    unfold resolveFold
    rw [resolveStep_of_canonical ename st v hv1 hv2]
    rw [ih _ hn1.2 hn2.2 ?f1 ?f2]
    · simp only [List.length_append, List.length_cons, List.length_nil]
      omega
    case f1 =>
      intro w hw
      simp only [List.mem_cons, not_or]
      constructor
      · intro hcontra
        exact hn1.1 (hcontra ▸ List.mem_map_of_mem _ hw)
      · exact hf1 w (List.mem_cons_of_mem v hw)
    case f2 =>
      intro w hw
      simp only [List.map_append, List.map_cons, List.map_nil, List.mem_append,
        List.mem_singleton, not_or]
      constructor
      · exact hf2 w (List.mem_cons_of_mem v hw)
      · intro hcontra
        exact hn2.1 (hcontra ▸ List.mem_map_of_mem _ hw)

lemma resolveFold_length_eq_imp (ename : List Char) :
    ∀ (vs : List DeclaredValue) (st : ResolveState),
      (resolveFold ename st vs).result.length = st.result.length + vs.length →
      (vs.map fun v => normName ename v.name).Nodup ∧
      (vs.map (·.number)).Nodup ∧
      (∀ v ∈ vs, normName ename v.name ∉ st.seenNames) ∧
      (∀ v ∈ vs, v.number ∉ st.result.map (·.number)) := by
  intro vs
  induction vs with
  | nil => intro st _; simp
  | cons v rest ih =>
    intro st heq
    unfold resolveFold at heq
    have hle := resolveFold_length_le ename rest (resolveStep ename st v)
    have hstep := resolveStep_result_length ename st v
    by_cases hcond : normName ename v.name ∉ st.seenNames ∧
        v.number ∉ st.result.map (·.number)
    · rw [if_pos hcond] at hstep
      have heq' : (resolveFold ename (resolveStep ename st v) rest).result.length =
          (resolveStep ename st v).result.length + rest.length := by
        simp only [List.length_cons] at heq
        omega
      obtain ⟨hnr, hnn, hfr1, hfr2⟩ := ih _ heq'
      have hseen : (resolveStep ename st v).seenNames =
          normName ename v.name :: st.seenNames := by
        rw [resolveStep_of_canonical ename st v hcond.1 hcond.2]
      have hres : (resolveStep ename st v).result.map (·.number) =
          st.result.map (·.number) ++ [v.number] := by
        rw [resolveStep_of_canonical ename st v hcond.1 hcond.2]
        simp
      refine ⟨?_, ?_, ?_, ?_⟩
      · simp only [List.map_cons, List.nodup_cons]
        refine ⟨?_, hnr⟩
        intro hcontra
        obtain ⟨w, hw, hnw⟩ := List.mem_map.mp hcontra
        have := hfr1 w hw
        rw [hseen] at this
        exact this (List.mem_cons.mpr (Or.inl hnw))
      · simp only [List.map_cons, List.nodup_cons]
        refine ⟨?_, hnn⟩
        intro hcontra
        obtain ⟨w, hw, hnw⟩ := List.mem_map.mp hcontra
        have := hfr2 w hw
        rw [hres] at this
        exact this (List.mem_append.mpr (Or.inr (List.mem_singleton.mpr hnw)))
      · intro w hw
        rcases List.mem_cons.mp hw with rfl | hw
        · exact hcond.1
        · have := hfr1 w hw
          rw [hseen] at this
          exact fun hc => this (List.mem_cons_of_mem _ hc)
      · intro w hw
        rcases List.mem_cons.mp hw with rfl | hw
        · exact hcond.2
        · have := hfr2 w hw
          rw [hres] at this
          exact fun hc => this (List.mem_append.mpr (Or.inl hc))
    · rw [if_neg hcond] at hstep
      simp only [List.length_cons] at heq
      omega

/-- C6 counterexample: two declared values with distinct normalized
names but a shared number produce one canonical value, so count
equality fails even though no two values normalize to the same name. -/
theorem canonical_count_counterexample :
    (enumValues "E".toList [⟨"A".toList, 0⟩, ⟨"B".toList, 0⟩]).length ≠
      ([⟨"A".toList, 0⟩, ⟨"B".toList, 0⟩] : List DeclaredValue).length ∧
    (([⟨"A".toList, 0⟩, ⟨"B".toList, 0⟩] : List DeclaredValue).map
      fun v => normName "E".toList v.name).Nodup := by
  constructor
  · decide
  · decide

/-- C6 (amended): the canonical count never exceeds the declared count,
with equality exactly when no two declared values normalize to the same
name AND no two declared values share a number. -/
theorem canonical_count_le (ename : List Char) (vs : List DeclaredValue) :
    (enumValues ename vs).length ≤ vs.length ∧
    ((enumValues ename vs).length = vs.length ↔
      (vs.map fun v => normName ename v.name).Nodup ∧ (vs.map (·.number)).Nodup) := by
  constructor
  · have := resolveFold_length_le ename vs { seenNames := [], result := [] }
    simpa [enumValues] using this
  · constructor
    · intro h
      have := resolveFold_length_eq_imp ename vs { seenNames := [], result := [] }
        (by simpa [enumValues] using h)
      exact ⟨this.1, this.2.1⟩
    · rintro ⟨h1, h2⟩
      have := resolveFold_length_of_fresh ename vs { seenNames := [], result := [] } h1 h2
        (by intro v _; simp) (by intro v _; simp)
      simpa [enumValues] using this

/-- C6 witness: a singleton schema attains count equality. -/
theorem canonical_count_le_witness :
    (enumValues "E".toList [⟨"A".toList, 0⟩]).length =
      ([⟨"A".toList, 0⟩] : List DeclaredValue).length :=
  (canonical_count_le "E".toList [⟨"A".toList, 0⟩]).2.mpr (by constructor <;> decide)

lemma resolveFold_nodup_numbers (ename : List Char) :
    ∀ (vs : List DeclaredValue) (st : ResolveState),
      (st.result.map (·.number)).Nodup →
      ((resolveFold ename st vs).result.map (·.number)).Nodup := by
  intro vs
  induction vs with
  | nil => intro st h; exact h
  | cons v rest ih =>
    intro st h
    unfold resolveFold
    apply ih
    by_cases h1 : normName ename v.name ∈ st.seenNames
    · rw [resolveStep_seen_of_discard ename st v h1]; exact h
    · by_cases h2 : v.number ∈ st.result.map (·.number)
      · rw [resolveStep_of_alias ename st v h1 h2]
        simpa [addAlias_map_number] using h
      · rw [resolveStep_of_canonical ename st v h1 h2]
        simp only [List.map_append, List.map_cons, List.map_nil]
        rw [List.nodup_append]
        exact ⟨h, List.nodup_singleton _, by simpa [List.disjoint_singleton] using h2⟩

lemma resolveFold_alias_source (ename : List Char) :
    ∀ (vs : List DeclaredValue) (st : ResolveState),
      ∀ entry ∈ (resolveFold ename st vs).result, ∀ a ∈ entry.aliases,
        (∃ e0 ∈ st.result, e0.number = entry.number ∧ a ∈ e0.aliases) ∨
        (∃ v ∈ vs, normName ename v.name = a ∧ v.number = entry.number) := by
  intro vs
  induction vs with
  | nil => intro st entry hentry a ha; exact Or.inl ⟨entry, hentry, rfl, ha⟩
  | cons v rest ih =>
    intro st entry hentry a ha
    unfold resolveFold at hentry
    rcases ih _ entry hentry a ha with ⟨e0, he0, hnum, hal⟩ | ⟨w, hw, hnw, hwnum⟩
    · by_cases h1 : normName ename v.name ∈ st.seenNames
      · rw [resolveStep_seen_of_discard ename st v h1] at he0
        exact Or.inl ⟨e0, he0, hnum, hal⟩
      · by_cases h2 : v.number ∈ st.result.map (·.number)
        · rw [resolveStep_of_alias ename st v h1 h2] at he0
          rcases addAlias_mem _ _ _ e0 he0 with hmem | ⟨e1, he1, hne1, heq⟩
          · exact Or.inl ⟨e0, hmem, hnum, hal⟩
          · subst heq
            simp only at hal hnum
            rcases List.mem_append.mp hal with hal | hal
            · exact Or.inl ⟨e1, he1, hne1.symm ▸ hnum, hal⟩
            · rw [List.mem_singleton] at hal
              subst hal
              exact Or.inr ⟨v, List.mem_cons_self v rest, rfl, by omega⟩
        · rw [resolveStep_of_canonical ename st v h1 h2] at he0
          rcases List.mem_append.mp he0 with hmem | hmem
          · exact Or.inl ⟨e0, hmem, hnum, hal⟩
          · rw [List.mem_singleton] at hmem
            subst hmem
            simp at hal
    · exact Or.inr ⟨w, List.mem_cons_of_mem v hw, hnw, hwnum⟩

lemma firstDedup_congr : ∀ (l s1 s2 : List Int), (∀ x, x ∈ s1 ↔ x ∈ s2) →
    firstDedup s1 l = firstDedup s2 l := by
  intro l
  induction l with
  | nil => intro s1 s2 _; rfl
  | cons n rest ih =>
    intro s1 s2 hmem
    unfold firstDedup
    by_cases h : n ∈ s1
    · rw [if_pos h, if_pos ((hmem n).mp h)]
      exact ih s1 s2 hmem
    · rw [if_neg h, if_neg (fun hc => h ((hmem n).mpr hc))]
      refine congrArg _ (ih _ _ ?_)
      intro x
      simp only [List.mem_cons]
      exact or_congr Iff.rfl (hmem x)

lemma resolveFold_numbers_ordered (ename : List Char) :
    ∀ (vs : List DeclaredValue) (st : ResolveState),
      (resolveFold ename st vs).result.map (·.number) =
        st.result.map (·.number) ++
          firstDedup (st.result.map (·.number))
            ((survivors ename st.seenNames vs).map (·.number)) := by
  intro vs
  induction vs with
  | nil => intro st; simp [resolveFold, survivors, firstDedup]
  | cons v rest ih =>
    intro st
    unfold resolveFold survivors
    by_cases h1 : normName ename v.name ∈ st.seenNames
    · rw [resolveStep_seen_of_discard ename st v h1, if_pos h1]
      exact ih st
    · rw [if_neg h1]
      by_cases h2 : v.number ∈ st.result.map (·.number)
      · rw [resolveStep_of_alias ename st v h1 h2]
        rw [ih]
        simp only [addAlias_map_number, List.map_cons]
        rw [firstDedup, if_pos h2]
      · rw [resolveStep_of_canonical ename st v h1 h2]
        rw [ih]
        simp only [List.map_append, List.map_cons, List.map_nil]
        rw [firstDedup, if_neg h2]
        have hcongr : firstDedup (st.result.map (·.number) ++ [v.number])
            ((survivors ename (normName ename v.name :: st.seenNames) rest).map
              (·.number)) =
            firstDedup (v.number :: st.result.map (·.number))
              ((survivors ename (normName ename v.name :: st.seenNames) rest).map
                (·.number)) := by
          apply firstDedup_congr
          intro x
          simp only [List.mem_append, List.mem_singleton, List.mem_cons]
          tauto
        rw [hcongr, List.append_assoc, List.singleton_append]

/-- C7: canonical numbers are pairwise distinct; every alias is attached
to the canonical entry whose number equals the alias's declared number;
and the canonical list is ordered by first appearance of each distinct
number among the non-discarded declared values. -/
theorem canonical_invariants (ename : List Char) (vs : List DeclaredValue) :
    ((enumValues ename vs).map (·.number)).Nodup ∧
    (∀ entry ∈ enumValues ename vs, ∀ a ∈ entry.aliases,
      ∃ v ∈ vs, normName ename v.name = a ∧ v.number = entry.number) ∧
    (enumValues ename vs).map (·.number) =
      firstDedup [] ((survivors ename [] vs).map (·.number)) := by
  refine ⟨?_, ?_, ?_⟩
  · exact resolveFold_nodup_numbers ename vs { seenNames := [], result := [] }
      (by simp)
  · intro entry hentry a ha
    rcases resolveFold_alias_source ename vs { seenNames := [], result := [] }
        entry hentry a ha with ⟨e0, he0, _, _⟩ | h
    · simp at he0
    · exact h
  · have := resolveFold_numbers_ordered ename vs { seenNames := [], result := [] }
    simpa [enumValues] using this

/-- C7 witness: invariants evaluated on a two-value schema with an alias. -/
theorem canonical_invariants_witness :
    ((enumValues "E".toList
      [⟨"A".toList, 0⟩, ⟨"B".toList, 1⟩, ⟨"B_ALIAS".toList, 1⟩]).map (·.number)).Nodup :=
  (canonical_invariants "E".toList
    [⟨"A".toList, 0⟩, ⟨"B".toList, 1⟩, ⟨"B_ALIAS".toList, 1⟩]).1

lemma mem_firstDedup : ∀ (l seen : List Int) (x : Int),
    x ∈ firstDedup seen l ↔ x ∈ l ∧ x ∉ seen := by
  intro l
  induction l with
  | nil => intro seen x; simp [firstDedup]
  | cons n rest ih =>
    intro seen x
    unfold firstDedup
    by_cases h : n ∈ seen
    · rw [if_pos h, ih]
      simp only [List.mem_cons]
      constructor
      · rintro ⟨hr, hs⟩; exact ⟨Or.inr hr, hs⟩
      · rintro ⟨hr | hr, hs⟩
        · subst hr; exact absurd h hs
        · exact ⟨hr, hs⟩
    · rw [if_neg h]
      simp only [List.mem_cons, ih]
      constructor
      · rintro (rfl | ⟨hr, hs⟩)
        · exact ⟨Or.inl rfl, h⟩
        · exact ⟨Or.inr hr, fun hc => hs (Or.inr hc)⟩
      · rintro ⟨rfl | hr, hs⟩
        · exact Or.inl rfl
        · by_cases hx : x = n
          · exact Or.inl hx
          · exact Or.inr ⟨hr, fun hc => hc.elim hx hs⟩

lemma knownNumbers_mem (ename : List Char) (vs : List DeclaredValue) (n : Int) :
    n ∈ knownNumbers ename vs ↔ n ∈ (survivors ename [] vs).map (·.number) := by
  unfold knownNumbers enumValues
  have h := resolveFold_numbers_ordered ename vs { seenNames := [], result := [] }
  simp only [List.map_nil, List.nil_append] at h
  rw [h, mem_firstDedup]
  simp

/-- C1 counterexample: in the closed enum `[FOO = 0, Foo = 1]` the value
`Foo` is discarded by name collision, so `1` appears on a declared value
but `try_from(1)` fails — the accepted set is not the full
declared-number set. -/
theorem closed_tryFrom_counterexample :
    ((1 : Int) ∈ ([⟨"FOO".toList, 0⟩, ⟨"Foo".toList, 1⟩] : List DeclaredValue).map
      (·.number)) ∧
    tryFromI32 "E".toList [⟨"FOO".toList, 0⟩, ⟨"Foo".toList, 1⟩] 1 = Except.error 1 := by
  constructor
  · decide
  · rfl

/-- C1 (amended): the generated closed-enum `try_from` succeeds exactly
on the numbers of the declared values that survive name-collision
discard (numbers collapsed as aliases included); on failure it returns
an unknown-enum-value error carrying the rejected integer, and every
accepted integer round-trips. -/
theorem closed_tryFrom_amended (ename : List Char) (vs : List DeclaredValue) (n : Int) :
    (tryFromI32 ename vs n = Except.ok { raw := n } ↔
      n ∈ (survivors ename [] vs).map (·.number)) ∧
    (tryFromI32 ename vs n = Except.error n ↔
      n ∉ (survivors ename [] vs).map (·.number)) ∧
    (∀ v', tryFromI32 ename vs n = Except.ok v' → toI32 v' = n) := by
  have hmem := knownNumbers_mem ename vs n
  unfold tryFromI32
  by_cases h : n ∈ knownNumbers ename vs
  · rw [if_pos h]
    refine ⟨⟨fun _ => hmem.mp h, fun _ => rfl⟩, ⟨fun hc => absurd hc (by simp),
      fun hc => absurd (hmem.mp h) hc⟩, ?_⟩
    rintro v' hv'
    rw [Except.ok.injEq] at hv'
    rw [← hv']
    rfl
  · rw [if_neg h]
    refine ⟨⟨fun hc => absurd hc (by simp), fun hc => absurd (hmem.mpr hc) h⟩,
      ⟨fun _ => fun hc => h (hmem.mpr hc), fun _ => rfl⟩, ?_⟩
    rintro v' hv'
    exact absurd hv' (by simp)

/-- C1 witness: `try_from(0)` succeeds on the surviving value `FOO = 0`
and round-trips. -/
theorem closed_tryFrom_amended_witness :
    tryFromI32 "E".toList [⟨"FOO".toList, 0⟩, ⟨"Foo".toList, 1⟩] 0 =
      Except.ok { raw := 0 } :=
  (closed_tryFrom_amended "E".toList [⟨"FOO".toList, 0⟩, ⟨"Foo".toList, 1⟩] 0).1.mpr
    (by decide)

end RustEnumGen
